import Mathlib

/-
  Verification of the modal editor core of the midetor repository.

  The program is a vim-style terminal note editor.  The editing core lives in
  src/app.rs (the `App` struct and its `handle_input` dispatcher) together with
  an earlier self-contained revision in src/main.rs (whose `main` owns the
  blocking event loop).  This file shallowly embeds the data model and the
  operations of that core:

  * a document is a list of lines, each line a list of Unicode characters
    (cursor columns are character offsets; the Rust code converts them to byte
    offsets with `char_indices().nth(..)` before slicing, which we model
    explicitly with a byte-index machinery);
  * the Visual-mode character-wise delete (app.rs 2141-2199);
  * the VisualBlock yank (app.rs 2038-2054);
  * BlockInsert entry, typed characters and Backspace (app.rs 2205-2330);
  * the Normal-mode key-sequence resolver (app.rs 1561-1649, 1784-1791);
  * the navigation history (app.rs 436-441, 481-501);
  * the Command-mode `:w`/`:wq` execution and the event loop's error
    propagation (app.rs 327-342, 1879-1916; main.rs 514-557);
  * the list-selection Down handlers (app.rs 1930-1935, 1979-1984, 2008-2013);
  * the undo snapshot engine (modelled from the spec, see `UndoTA`).
-/

namespace Midetor

/-- A document line: the sequence of its Unicode scalar values.  The Rust code
stores a `String` per line and addresses it by character index, converting to
byte indices before slicing. -/
abbrev Line := List Char

/-! Section: List access helpers

Small `getD` lemmas used throughout; proved by induction to stay
self-contained. -/

theorem getD_eq_of_le {α : Type} (l : List α) (d : α) (i : Nat)
    (h : l.length ≤ i) : l.getD i d = d := by
  induction l generalizing i with
  | nil => simp [List.getD]
  | cons a t ih =>
    cases i with
    | zero => simp at h
    | succ j =>
      simp only [List.getD_cons_succ]
      exact ih j (by simpa using Nat.le_of_succ_le_succ h)

theorem getD_append_left {α : Type} (l₁ l₂ : List α) (d : α) (i : Nat)
    (h : i < l₁.length) : (l₁ ++ l₂).getD i d = l₁.getD i d := by
  induction l₁ generalizing i with
  | nil => simp at h
  | cons a t ih =>
    cases i with
    | zero => simp
    | succ j =>
      simp only [List.cons_append, List.getD_cons_succ]
      exact ih j (by simpa using Nat.lt_of_succ_lt_succ h)

theorem getD_append_right {α : Type} (l₁ l₂ : List α) (d : α) (i : Nat) :
    (l₁ ++ l₂).getD (l₁.length + i) d = l₂.getD i d := by
  induction l₁ with
  | nil => simp
  | cons a t ih =>
    simpa [Nat.succ_add] using ih

theorem getD_append_sub {α : Type} (l₁ l₂ : List α) (d : α) (i : Nat)
    (h : l₁.length ≤ i) :
    (l₁ ++ l₂).getD i d = l₂.getD (i - l₁.length) d := by
  conv_lhs => rw [show i = l₁.length + (i - l₁.length) from by omega]
  rw [getD_append_right]

theorem getD_set_eq {α : Type} (l : List α) (v d : α) (i : Nat)
    (h : i < l.length) : (l.set i v).getD i d = v := by
  induction l generalizing i with
  | nil => simp at h
  | cons a t ih =>
    cases i with
    | zero => simp
    | succ j =>
      simp only [List.set_cons_succ, List.getD_cons_succ]
      exact ih j (by simpa using Nat.lt_of_succ_lt_succ h)

theorem getD_set_ne {α : Type} (l : List α) (v d : α) (i j : Nat)
    (h : i ≠ j) : (l.set i v).getD j d = l.getD j d := by
  induction l generalizing i j with
  | nil => simp [List.getD]
  | cons a t ih =>
    cases i with
    | zero =>
      cases j with
      | zero => exact absurd rfl h
      | succ j' => simp
    | succ i' =>
      cases j with
      | zero => simp
      | succ j' =>
        simp only [List.set_cons_succ, List.getD_cons_succ]
        exact ih i' j' (fun hc => h (by rw [hc]))

theorem getD_take {α : Type} (l : List α) (d : α) (n i : Nat)
    (h : i < n) : (l.take n).getD i d = l.getD i d := by
  induction l generalizing n i with
  | nil => simp
  | cons a t ih =>
    cases n with
    | zero => simp at h
    | succ m =>
      cases i with
      | zero => simp
      | succ j =>
        simp only [List.take_succ_cons, List.getD_cons_succ]
        exact ih m j (Nat.lt_of_succ_lt_succ h)

theorem getD_drop {α : Type} (l : List α) (d : α) (n i : Nat) :
    (l.drop n).getD i d = l.getD (n + i) d := by
  induction l generalizing n with
  | nil => simp [List.getD]
  | cons a t ih =>
    cases n with
    | zero => simp
    | succ m =>
      simp only [List.drop_succ_cons]
      rw [ih, Nat.succ_add]
      simp

theorem getD_range' (s n i : Nat) (d : Nat) (h : i < n) :
    (List.range' s n).getD i d = s + i := by
  induction n generalizing s i with
  | zero => simp at h
  | succ m ih =>
    rw [List.range'_succ]
    cases i with
    | zero => simp
    | succ j =>
      simp only [List.getD_cons_succ]
      rw [ih (s + 1) j (Nat.lt_of_succ_lt_succ h)]
      omega

/-! Section: Coordinate translation: character offsets to byte offsets

Every Rust line is a UTF-8 `String`.  Editing logic uses character offsets and
converts with `line.char_indices().nth(col)`, defaulting to `line.len()` (or
`0` in some call sites) when the offset is past the last character.  We model
byte offsets as sums of `Char.utf8Size`. -/

/-- Byte length of a line, `line.len()` in Rust. -/
def byteLen (l : Line) : Nat := (l.map Char.utf8Size).sum

/-- Byte offset of the `k`-th character: what `line.char_indices().nth(k)`
returns (when `k` is in range). -/
def byteIdx (l : Line) (k : Nat) : Nat := byteLen (l.take k)

/-- The translation `line.char_indices().nth(k).map(|(i, _)| i)`:
`some` byte offset when `k` indexes a character, `none` past the end. -/
def charIndicesNth (l : Line) (k : Nat) : Option Nat :=
  if k < l.length then some (byteIdx l k) else none

/-- The common pattern `char_indices().nth(k).map(..).unwrap_or(line.len())`. -/
def nthByteOrLen (l : Line) (k : Nat) : Nat :=
  (charIndicesNth l k).getD (byteLen l)

theorem byteLen_append (l₁ l₂ : Line) :
    byteLen (l₁ ++ l₂) = byteLen l₁ + byteLen l₂ := by
  simp [byteLen]

theorem byteIdx_zero (l : Line) : byteIdx l 0 = 0 := by
  simp [byteIdx, byteLen]

theorem byteIdx_cons_succ (c : Char) (l : Line) (k : Nat) :
    byteIdx (c :: l) (k + 1) = c.utf8Size + byteIdx l k := by
  simp [byteIdx, byteLen]

theorem byteIdx_length (l : Line) : byteIdx l l.length = byteLen l := by
  simp [byteIdx, List.take_of_length_le (Nat.le_refl _)]

theorem byteIdx_add (l : Line) (a b : Nat) :
    byteIdx l (a + b) = byteIdx l a + byteIdx (l.drop a) b := by
  simp only [byteIdx]
  rw [List.take_add, byteLen_append]

theorem nthByteOrLen_eq (l : Line) (k : Nat) :
    nthByteOrLen l k = byteIdx l (min k l.length) := by
  by_cases h : k < l.length
  · simp [nthByteOrLen, charIndicesNth, h, Nat.min_eq_left (Nat.le_of_lt h)]
  · have hk : l.length ≤ k := Nat.le_of_not_lt h
    simp [nthByteOrLen, charIndicesNth, h, Nat.min_eq_right hk, byteIdx_length]

/-- Bytes kept by the Rust slice `&line[b..]` when `b` is a character
boundary, expressed on the character list. -/
def dropBytes : Line → Nat → Line
  | [], _ => []
  | c :: cs, b => if b = 0 then c :: cs else dropBytes cs (b - c.utf8Size)

/-- Bytes kept by the Rust slice `&line[..b]` when `b` is a character
boundary, expressed on the character list. -/
def takeBytes : Line → Nat → Line
  | [], _ => []
  | c :: cs, b => if c.utf8Size ≤ b then c :: takeBytes cs (b - c.utf8Size) else []

theorem dropBytes_byteIdx (l : Line) (k : Nat) (hk : k ≤ l.length) :
    dropBytes l (byteIdx l k) = l.drop k := by
  induction l generalizing k with
  | nil => simp [dropBytes]
  | cons c cs ih =>
    cases k with
    | zero => simp [byteIdx_zero, dropBytes]
    | succ j =>
      rw [byteIdx_cons_succ]
      have hne : c.utf8Size + byteIdx cs j ≠ 0 :=
        Nat.pos_iff_ne_zero.mp
          (Nat.lt_of_lt_of_le c.utf8Size_pos (Nat.le_add_right _ _))
      simp only [dropBytes]
      rw [if_neg hne, Nat.add_sub_cancel_left, List.drop_succ_cons]
      exact ih j (by simpa using Nat.le_of_succ_le_succ hk)

theorem takeBytes_byteIdx (l : Line) (k : Nat) (hk : k ≤ l.length) :
    takeBytes l (byteIdx l k) = l.take k := by
  induction l generalizing k with
  | nil => simp [takeBytes]
  | cons c cs ih =>
    cases k with
    | zero =>
      rw [byteIdx_zero]
      have hno : ¬ c.utf8Size ≤ 0 := Nat.not_le_of_lt c.utf8Size_pos
      simp [takeBytes, hno]
    | succ j =>
      rw [byteIdx_cons_succ]
      simp only [takeBytes]
      rw [if_pos (Nat.le_add_right _ _), Nat.add_sub_cancel_left,
        List.take_succ_cons, ih j (by simpa using Nat.le_of_succ_le_succ hk)]

/-! Section: VisualBlock yank (app.rs 2038-2054)

For each row of the selection rectangle the code computes
`start_byte = char_indices().nth(min_col).unwrap_or(line.len())`,
`end_byte = char_indices().nth(max_col + 1).unwrap_or(line.len())` and keeps
`line[start_byte..end_byte]`. -/

/-- One row of the VisualBlock yank of app.rs 2041-2052. -/
def blockYankRow (l : Line) (minCol maxCol : Nat) : Line :=
  takeBytes (dropBytes l (nthByteOrLen l minCol))
    (nthByteOrLen l (maxCol + 1) - nthByteOrLen l minCol)

/-- The VisualBlock `y` handler of app.rs 2038-2054: map `blockYankRow` over
the inclusive row range, producing the new yank register. -/
def blockYank (lines : List Line) (minRow maxRow minCol maxCol : Nat) :
    List Line :=
  (List.range' minRow (maxRow + 1 - minRow)).map
    (fun r => blockYankRow (lines.getD r []) minCol maxCol)

theorem blockYankRow_eq (l : Line) (minCol maxCol : Nat)
    (h : minCol ≤ maxCol) :
    blockYankRow l minCol maxCol = (l.drop minCol).take (maxCol + 1 - minCol) := by
  have hmm : minCol ≤ maxCol + 1 := Nat.le_succ_of_le h
  set a := min minCol l.length with ha
  set b := min (maxCol + 1) l.length with hb
  have hab : a ≤ b := min_le_min hmm (Nat.le_refl _)
  have hal : a ≤ l.length := Nat.min_le_right _ _
  have hbl : b ≤ l.length := Nat.min_le_right _ _
  have h1 : nthByteOrLen l minCol = byteIdx l a := nthByteOrLen_eq l minCol
  have h2 : nthByteOrLen l (maxCol + 1) = byteIdx l b := nthByteOrLen_eq l _
  have hsplit : byteIdx l b = byteIdx l a + byteIdx (l.drop a) (b - a) := by
    conv_lhs => rw [show b = a + (b - a) from (Nat.add_sub_cancel' hab).symm]
    rw [byteIdx_add]
  unfold blockYankRow
  rw [h1, h2, hsplit, Nat.add_sub_cancel_left,
    dropBytes_byteIdx l a hal,
    takeBytes_byteIdx (l.drop a) (b - a)
      (by rw [List.length_drop]; omega)]
  by_cases hc : minCol < l.length
  · have haa : a = minCol := Nat.min_eq_left (Nat.le_of_lt hc)
    by_cases hd : maxCol + 1 ≤ l.length
    · have hbb : b = maxCol + 1 := Nat.min_eq_left hd
      rw [haa, hbb]
    · have hbb : b = l.length := Nat.min_eq_right (Nat.le_of_not_le hd)
      rw [haa, hbb]
      have hlen : (l.drop minCol).length = l.length - minCol := List.length_drop _ _
      rw [List.take_of_length_le (by omega),
        List.take_of_length_le (by omega)]
  · have haa : a = l.length := Nat.min_eq_right (Nat.le_of_not_lt hc)
    rw [haa, List.drop_length,
      List.drop_eq_nil_of_le (Nat.le_of_not_lt hc)]
    simp

theorem byteIdx_mono (l : Line) (j k : Nat) (h : j ≤ k) :
    byteIdx l j ≤ byteIdx l k := by
  conv_rhs => rw [show k = j + (k - j) from (Nat.add_sub_cancel' h).symm]
  rw [byteIdx_add]
  exact Nat.le_add_right _ _

theorem byteIdx_le_byteLen (l : Line) (k : Nat) : byteIdx l k ≤ byteLen l := by
  conv_rhs => rw [← List.take_append_drop k l]
  rw [byteLen_append]
  exact Nat.le_add_right _ _

theorem getD_map_range' {α : Type} (f : Nat → α) (s n i : Nat) (d : α)
    (h : i < n) : ((List.range' s n).map f).getD i d = f (s + i) := by
  induction n generalizing s i with
  | zero => simp at h
  | succ m ih =>
    rw [List.range'_succ]
    cases i with
    | zero => simp
    | succ j =>
      simp only [List.map_cons, List.getD_cons_succ]
      rw [ih (s + 1) j (Nat.lt_of_succ_lt_succ h)]
      congr 1
      omega

/-- C4.  Block-wise yank (`y` in VisualBlock mode, app.rs 2038-2054) is total
over rows of unequal length: the yank register gets exactly one string per row
of `[min_row, max_row]`; each string is the character range
`[min_col, max_col+1)` of its row clamped to the row's character length, so
its character length is at most `max_col - min_col + 1` and equals the number
of characters available past `min_col` when the row is shorter; and for every
row the two byte offsets used to slice are character boundaries in order and
within the line's byte length (no out-of-bounds indexing or panic, also with
multi-byte characters). -/
theorem c4_block_yank_total_and_clamped
    (lines : List Line) (minRow maxRow minCol maxCol : Nat)
    (hrow : minRow ≤ maxRow) (hlen : maxRow < lines.length)
    (hcol : minCol ≤ maxCol) :
    (blockYank lines minRow maxRow minCol maxCol).length
        = maxRow - minRow + 1 ∧
    (∀ s ∈ blockYank lines minRow maxRow minCol maxCol,
        s.length ≤ maxCol - minCol + 1) ∧
    (∀ i, i ≤ maxRow - minRow →
        (blockYank lines minRow maxRow minCol maxCol).getD i []
            = ((lines.getD (minRow + i) []).drop minCol).take
                (maxCol + 1 - minCol) ∧
        ((lines.getD (minRow + i) []).length < maxCol + 1 →
          ((blockYank lines minRow maxRow minCol maxCol).getD i []).length
              = (lines.getD (minRow + i) []).length - minCol)) ∧
    (∀ r, minRow ≤ r → r ≤ maxRow →
        nthByteOrLen (lines.getD r []) minCol
            ≤ nthByteOrLen (lines.getD r []) (maxCol + 1) ∧
        nthByteOrLen (lines.getD r []) (maxCol + 1)
            ≤ byteLen (lines.getD r []) ∧
        nthByteOrLen (lines.getD r []) minCol
            = byteIdx (lines.getD r []) (min minCol (lines.getD r []).length) ∧
        nthByteOrLen (lines.getD r []) (maxCol + 1)
            = byteIdx (lines.getD r [])
                (min (maxCol + 1) (lines.getD r []).length)) := by
  refine ⟨?_, ?_, ?_, ?_⟩
  · simp only [blockYank, List.length_map, List.length_range']
    omega
  · intro s hs
    simp only [blockYank, List.mem_map] at hs
    obtain ⟨r, _, hr⟩ := hs
    rw [← hr, blockYankRow_eq _ _ _ hcol]
    calc (((lines.getD r []).drop minCol).take (maxCol + 1 - minCol)).length
        ≤ maxCol + 1 - minCol := by
          rw [List.length_take]; exact Nat.min_le_left _ _
      _ ≤ maxCol - minCol + 1 := by omega
  · intro i hi
    have hi' : i < maxRow + 1 - minRow := by omega
    have hget : (blockYank lines minRow maxRow minCol maxCol).getD i []
        = blockYankRow (lines.getD (minRow + i) []) minCol maxCol :=
      getD_map_range' _ minRow _ i [] hi'
    constructor
    · rw [hget, blockYankRow_eq _ _ _ hcol]
    · intro hshort
      rw [hget, blockYankRow_eq _ _ _ hcol, List.length_take,
        List.length_drop]
      omega
  · intro r _ _
    set l := lines.getD r [] with hl
    have h1 := nthByteOrLen_eq l minCol
    have h2 := nthByteOrLen_eq l (maxCol + 1)
    refine ⟨?_, ?_, h1, h2⟩
    · rw [h1, h2]
      exact byteIdx_mono l _ _
        (min_le_min (by omega) (Nat.le_refl _))
    · rw [h2]
      exact byteIdx_le_byteLen l _

/-- Witness for C4 at a concrete block: rows of lengths 1, 3 and 0 (one of
them containing a two-byte character), columns 1..2. -/
theorem c4_block_yank_total_and_clamped_witness :
    (blockYank [['a'], ['é', 'b', 'c'], []] 0 2 1 2).length = 3 := by
  have h := c4_block_yank_total_and_clamped [['a'], ['é', 'b', 'c'], []]
    0 2 1 2 (by decide) (by decide) (by decide)
  exact h.1

/-! Section: Visual (character-wise) delete (app.rs 2139-2199)

With a normalized selection range `((start_row, start_col), (end_row,
end_col))` the code rebuilds the line vector: the start row becomes
`first_line[..start_byte] ++ last_line[end_byte..]` where
`start_byte = char_indices().nth(start_col).unwrap_or(0)` (note the `0`
default) and `end_byte = char_indices().nth(end_col).unwrap_or(len)`, then
`drain((start_row + 1)..=end_row)` removes the interior and end rows, and the
cursor jumps to `(start_row, start_col)` (clamped by the text area). -/

/-- The pattern `char_indices().nth(k).map(..).unwrap_or(0)` used for the
start offset of the character-wise delete. -/
def nthByteOrZero (l : Line) (k : Nat) : Nat :=
  (charIndicesNth l k).getD 0

theorem takeBytes_nthByteOrZero (l : Line) (k : Nat) :
    takeBytes l (nthByteOrZero l k)
      = if k < l.length then l.take k else [] := by
  by_cases h : k < l.length
  · simp only [nthByteOrZero, charIndicesNth, if_pos h, Option.getD_some]
    exact takeBytes_byteIdx l k (Nat.le_of_lt h)
  · simp only [nthByteOrZero, charIndicesNth, if_neg h, Option.getD_none]
    rw [show (0 : Nat) = byteIdx l 0 from (byteIdx_zero l).symm,
      takeBytes_byteIdx l 0 (Nat.zero_le _)]
    simp

theorem dropBytes_nthByteOrLen (l : Line) (k : Nat) :
    dropBytes l (nthByteOrLen l k) = l.drop k := by
  rw [nthByteOrLen_eq, dropBytes_byteIdx l _ (Nat.min_le_right _ _)]
  by_cases h : k ≤ l.length
  · rw [Nat.min_eq_left h]
  · rw [Nat.min_eq_right (Nat.le_of_not_le h), List.drop_length,
      List.drop_eq_nil_of_le (Nat.le_of_not_le h)]

/-- The multi-row branch of the Visual `x`/`d` handler (app.rs 2161-2198):
returns the new line vector and the cursor position after the clamped jump to
`(start_row, start_col)`. -/
def visualDeleteMulti (lines : List Line) (sr sc er ec : Nat) :
    List Line × Nat × Nat :=
  let firstLine := lines.getD sr []
  let lastLine := lines.getD er []
  let newFirst := takeBytes firstLine (nthByteOrZero firstLine sc)
      ++ dropBytes lastLine (nthByteOrLen lastLine ec)
  let l1 := lines.set sr newFirst
  let newLines := l1.take (sr + 1) ++ l1.drop (er + 1)
  let row := min sr (newLines.length - 1)
  (newLines, row, min sc (newLines.getD row []).length)

/-- The single-row branch of the Visual `x`/`d` handler (app.rs 2147-2160). -/
def visualDeleteSingle (lines : List Line) (sr sc ec : Nat) :
    List Line × Nat × Nat :=
  let line := lines.getD sr []
  let newLine := takeBytes line (nthByteOrZero line sc)
      ++ dropBytes line (nthByteOrLen line ec)
  let newLines := lines.set sr newLine
  let row := min sr (newLines.length - 1)
  (newLines, row, min sc (newLines.getD row []).length)

/-- The Visual-mode character-wise delete, dispatching on whether the
normalized range spans a single row (app.rs 2147). -/
def visualCharDelete (lines : List Line) (sr sc er ec : Nat) :
    List Line × Nat × Nat :=
  if sr = er then visualDeleteSingle lines sr sc ec
  else visualDeleteMulti lines sr sc er ec

/-- C1, counterexample.  With lines `["ab", "m", "cdefg"]` and the normalized
range `((0,2),(2,3))` — the selection starts at the end of the first row, a
legal cursor position — the claim predicts that row 0 becomes
`"ab" ++ "fg" = "abfg"`; the code's `unwrap_or(0)` start-byte default keeps
nothing of the first row, producing `"fg"`. -/
theorem c1_visual_delete_counterexample :
    (visualDeleteMulti [['a', 'b'], ['m'], ['c', 'd', 'e', 'f', 'g']]
        0 2 2 3).1 = [['f', 'g']] ∧
    ¬ ((visualDeleteMulti [['a', 'b'], ['m'], ['c', 'd', 'e', 'f', 'g']]
        0 2 2 3).1
      = [['a', 'b'] ++ (['c', 'd', 'e', 'f', 'g'].drop 3)]) := by
  constructor
  · decide
  · decide

/-- C1, amended.  Character-wise delete over a normalized range spanning rows
`sr < er` collapses the span: the surviving row `sr` is the first row's
characters before `sc` — or the empty string when `sc` is not strictly below
the first row's character length, because the start byte offset defaults to
`0` — concatenated with the last row's characters from `ec` onward; rows
strictly between plus the old end row are removed (the buffer shrinks by
`er - sr` rows, rows above `sr` are unchanged and rows below shift up); the
cursor relocates to `(sr, sc)` with the column clamped to the new row's
length. -/
theorem c1_visual_delete_multirow_amended
    (lines : List Line) (sr sc er ec : Nat)
    (hsr : sr < er) (her : er < lines.length) :
    (visualDeleteMulti lines sr sc er ec).1.length
        = lines.length - (er - sr) ∧
    (∀ i, i < sr → (visualDeleteMulti lines sr sc er ec).1.getD i []
        = lines.getD i []) ∧
    (visualDeleteMulti lines sr sc er ec).1.getD sr []
        = (if sc < (lines.getD sr []).length
            then (lines.getD sr []).take sc else [])
          ++ (lines.getD er []).drop ec ∧
    (∀ j, sr < j → j < (visualDeleteMulti lines sr sc er ec).1.length →
        (visualDeleteMulti lines sr sc er ec).1.getD j []
          = lines.getD (j + (er - sr)) []) ∧
    (visualDeleteMulti lines sr sc er ec).2.1 = sr ∧
    (visualDeleteMulti lines sr sc er ec).2.2
        = min sc ((visualDeleteMulti lines sr sc er ec).1.getD sr []).length := by
  have hset : (lines.set sr
      (takeBytes (lines.getD sr []) (nthByteOrZero (lines.getD sr []) sc)
        ++ dropBytes (lines.getD er []) (nthByteOrLen (lines.getD er []) ec))).length
      = lines.length := List.length_set _ _ _
  set newFirst := takeBytes (lines.getD sr []) (nthByteOrZero (lines.getD sr []) sc)
      ++ dropBytes (lines.getD er []) (nthByteOrLen (lines.getD er []) ec) with hnf
  set l1 := lines.set sr newFirst with hl1
  have hA : (l1.take (sr + 1)).length = sr + 1 := by
    rw [List.length_take, hl1, List.length_set]
    omega
  have hres1 : (visualDeleteMulti lines sr sc er ec).1
      = l1.take (sr + 1) ++ l1.drop (er + 1) := rfl
  have hlen : (visualDeleteMulti lines sr sc er ec).1.length
      = lines.length - (er - sr) := by
    rw [hres1, List.length_append, hA, List.length_drop, hl1, List.length_set]
    omega
  have hgsr : (visualDeleteMulti lines sr sc er ec).1.getD sr []
      = (if sc < (lines.getD sr []).length
          then (lines.getD sr []).take sc else [])
        ++ (lines.getD er []).drop ec := by
    rw [hres1, getD_append_left _ _ _ sr (by rw [hA]; omega),
      getD_take _ _ _ _ (Nat.lt_succ_self sr), hl1,
      getD_set_eq _ _ _ sr (by omega), hnf,
      takeBytes_nthByteOrZero, dropBytes_nthByteOrLen]
  refine ⟨hlen, ?_, hgsr, ?_, ?_, ?_⟩
  · intro i hi
    rw [hres1, getD_append_left _ _ _ i (by rw [hA]; omega),
      getD_take _ _ _ _ (by omega), hl1,
      getD_set_ne _ _ _ sr i (by omega)]
  · intro j hj hj'
    rw [hlen] at hj'
    rw [hres1, getD_append_sub _ _ _ j (by rw [hA]; omega), hA,
      getD_drop, hl1, getD_set_ne _ _ _ sr _ (by omega)]
    congr 1
    omega
  · show min sr ((visualDeleteMulti lines sr sc er ec).1.length - 1) = sr
    rw [hlen]
    omega
  · have hrow : min sr ((visualDeleteMulti lines sr sc er ec).1.length - 1)
        = sr := by rw [hlen]; omega
    show min sc (((visualDeleteMulti lines sr sc er ec).1.getD
        (min sr ((visualDeleteMulti lines sr sc er ec).1.length - 1)) []).length)
      = _
    rw [hrow]

/-- Witness for the amended C1: lines `["abc", "x", "def"]`, range
`((0,1),(2,1))`; the three rows collapse to the single row `"aef"`. -/
theorem c1_visual_delete_multirow_amended_witness :
    (visualDeleteMulti [['a', 'b', 'c'], ['x'], ['d', 'e', 'f']]
        0 1 2 1).1.length = 1 :=
  (c1_visual_delete_multirow_amended
    [['a', 'b', 'c'], ['x'], ['d', 'e', 'f']] 0 1 2 1
    (by decide) (by decide)).1

/-! Section: BlockInsert mode (app.rs 2205-2330)

`I`/`A` in VisualBlock capture `block_insert_col` and move the cursor to the
top row of the rectangle; the selection anchor stays set.  Every keystroke in
BlockInsert then RE-computes `(min_row, min_col, max_row, max_col)` from the
anchor and the LIVE cursor (app.rs 2255-2266) and `original_col` from that
recomputed rectangle (app.rs 2267-2270).  Rows are rewritten by jumping to
`(row, 0)`, `delete_line_by_end()` and `insert_str(new_line)`; when the
existing row is empty the cursor sits at the end of that line, so
`delete_line_by_end` deletes the line break instead, joining the next row —
`replaceLine` models that faithfully. -/

inductive InsPos where
  | before
  | after
deriving DecidableEq, Repr

/-- Editor state relevant to BlockInsert mode: buffer, selection anchor, the
cursor, `block_insert_col` and `insert_position`. -/
structure BIState where
  lines : List Line
  anchorRow : Nat
  anchorCol : Nat
  cursorRow : Nat
  cursorCol : Nat
  blockCol : Nat
  insPos : InsPos
deriving DecidableEq, Repr

/-- Rewrite row `row` to `new`: `Jump(row, 0)`, `delete_line_by_end()`,
`insert_str(new)`.  On a nonempty row this replaces the row's content; on an
empty row (with a successor) `delete_line_by_end` removes the newline, so the
rewritten row absorbs the following row. -/
def replaceLine (lines : List Line) (row : Nat) (new : Line) : List Line :=
  if (lines.getD row []).length = 0 ∧ row + 1 < lines.length then
    lines.take row ++ [new ++ lines.getD (row + 1) []] ++ lines.drop (row + 2)
  else lines.set row new

/-- The Rust `for row in min_row..=max_row` loop, rewriting each row with
`f` applied to its current content. -/
def rowMapLoop (f : Line → Line) (lines : List Line) (minRow n : Nat) :
    List Line :=
  (List.range' minRow n).foldl
    (fun ls r => replaceLine ls r (f (ls.getD r []))) lines

/-- New row content for a typed character (app.rs 2279-2291): pad with
spaces when the row is shorter than the target column, then insert the
character at the target column. -/
def mkBlockInsertLine (l : Line) (targetCol : Nat) (c : Char) : Line :=
  let padded := if targetCol > l.length
    then l ++ List.replicate (targetCol - l.length) ' ' else l
  padded.take targetCol ++ [c] ++ padded.drop targetCol

/-- New row content for Backspace (app.rs 2306-2317): remove the character at
the target column when the row is long enough, else leave the row alone. -/
def mkBackspaceLine (l : Line) (targetCol : Nat) : Line :=
  if targetCol < l.length then l.take targetCol ++ l.drop (targetCol + 1) else l

/-- Entering BlockInsert with `I` (app.rs 2205-2224): capture
`block_insert_col = min_col` and jump (clamped) to `(min_row, min_col)`. -/
def enterBlockInsertBefore (lines : List Line) (anchor cursor : Nat × Nat) :
    BIState :=
  let minRow := min anchor.1 cursor.1
  let minCol := min anchor.2 cursor.2
  let row' := min minRow (lines.length - 1)
  { lines := lines, anchorRow := anchor.1, anchorCol := anchor.2,
    cursorRow := row', cursorCol := min minCol (lines.getD row' []).length,
    blockCol := minCol, insPos := .before }

/-- Entering BlockInsert with `A` (app.rs 2225-2246): capture
`block_insert_col = max_col + 1` and jump (clamped) to
`(min_row, block_insert_col)`. -/
def enterBlockInsertAfter (lines : List Line) (anchor cursor : Nat × Nat) :
    BIState :=
  let minRow := min anchor.1 cursor.1
  let maxCol := max anchor.2 cursor.2
  let row' := min minRow (lines.length - 1)
  { lines := lines, anchorRow := anchor.1, anchorCol := anchor.2,
    cursorRow := row', cursorCol := min (maxCol + 1) (lines.getD row' []).length,
    blockCol := maxCol + 1, insPos := .after }

/-- A typed character in BlockInsert (app.rs 2277-2300): rows
`min_row..=max_row` of the rectangle recomputed from anchor and live cursor
are rewritten, `block_insert_col` advances by one, and the cursor jumps
(clamped) to `(min_row, block_insert_col)`. -/
def blockInsertChar (s : BIState) (c : Char) : BIState :=
  let minRow := min s.anchorRow s.cursorRow
  let maxRow := max s.anchorRow s.cursorRow
  let lines' := rowMapLoop (fun l => mkBlockInsertLine l s.blockCol c)
    s.lines minRow (maxRow + 1 - minRow)
  let bc' := s.blockCol + 1
  let row' := min minRow (lines'.length - 1)
  { s with
    lines := lines'
    blockCol := bc'
    cursorRow := row'
    cursorCol := min bc' (lines'.getD row' []).length }

/-- The quantity `original_col` as recomputed on every BlockInsert keystroke
(app.rs 2267-2270) from the anchor and the live cursor. -/
def originalColOf (s : BIState) : Nat :=
  match s.insPos with
  | .before => min s.anchorCol s.cursorCol
  | .after => max s.anchorCol s.cursorCol + 1

/-- Backspace in BlockInsert (app.rs 2302-2327): only when
`block_insert_col > original_col` (with `original_col` recomputed from the
live anchor/cursor), retreat the column by one, remove the character at the
retreated column from each row of the recomputed rectangle, and jump
(clamped) to `(min_row, block_insert_col)`. -/
def blockInsertBackspace (s : BIState) : BIState :=
  let minRow := min s.anchorRow s.cursorRow
  let maxRow := max s.anchorRow s.cursorRow
  if s.blockCol > originalColOf s then
    let bc' := s.blockCol - 1
    let lines' := rowMapLoop (fun l => mkBackspaceLine l bc')
      s.lines minRow (maxRow + 1 - minRow)
    let row' := min minRow (lines'.length - 1)
    { s with
      lines := lines'
      blockCol := bc'
      cursorRow := row'
      cursorCol := min bc' (lines'.getD row' []).length }
  else s

theorem replaceLine_of_nonempty (lines : List Line) (row : Nat) (new : Line)
    (h : lines.getD row [] ≠ []) :
    replaceLine lines row new = lines.set row new := by
  unfold replaceLine
  rw [if_neg]
  intro hc
  exact h (List.length_eq_zero.mp hc.1)

/-- When every row of `[minRow, minRow + n)` is nonempty, the Rust row loop
acts as an index-wise map: buffer length is preserved, rows inside the range
are rewritten from their original content, rows outside are untouched. -/
theorem rowMapLoop_spec (f : Line → Line) (lines : List Line) (minRow n : Nat)
    (hne : ∀ r, minRow ≤ r → r < minRow + n → lines.getD r [] ≠ []) :
    (rowMapLoop f lines minRow n).length = lines.length ∧
    ∀ j, (rowMapLoop f lines minRow n).getD j []
        = if minRow ≤ j ∧ j < minRow + n
          then f (lines.getD j []) else lines.getD j [] := by
  induction n generalizing minRow lines with
  | zero =>
    refine ⟨rfl, fun j => ?_⟩
    rw [if_neg (by omega)]
    rfl
  | succ m ih =>
    have hstep : rowMapLoop f lines minRow (m + 1)
        = rowMapLoop f
            (lines.set minRow (f (lines.getD minRow []))) (minRow + 1) m := by
      unfold rowMapLoop
      rw [List.range'_succ, List.foldl_cons,
        replaceLine_of_nonempty _ _ _ (hne minRow (Nat.le_refl _) (by omega))]
    set lines₁ := lines.set minRow (f (lines.getD minRow [])) with hl₁
    have hne₁ : ∀ r, minRow + 1 ≤ r → r < (minRow + 1) + m →
        lines₁.getD r [] ≠ [] := by
      intro r h1 h2
      rw [hl₁, getD_set_ne _ _ _ _ _ (by omega)]
      exact hne r (by omega) (by omega)
    obtain ⟨ihlen, ihget⟩ := ih lines₁ (minRow + 1) hne₁
    constructor
    · rw [hstep, ihlen, hl₁, List.length_set]
    · intro j
      rw [hstep, ihget j]
      by_cases h1 : minRow + 1 ≤ j ∧ j < (minRow + 1) + m
      · rw [if_pos h1, if_pos (by omega), hl₁,
          getD_set_ne _ _ _ _ _ (by omega)]
      · rw [if_neg h1]
        by_cases h2 : j = minRow
        · rw [h2, if_pos (by omega), hl₁, getD_set_eq]
          by_contra hlt
          have : lines.getD minRow [] = [] := getD_eq_of_le _ _ _ (by omega)
          exact hne minRow (Nat.le_refl _) (by omega) this
        · rw [if_neg (by omega), hl₁, getD_set_ne _ _ _ _ _ (by omega)]

theorem mkBlockInsertLine_getD (l : Line) (bc : Nat) (c : Char) :
    (mkBlockInsertLine l bc c).getD bc ' ' = c := by
  unfold mkBlockInsertLine
  set padded := if bc > l.length
    then l ++ List.replicate (bc - l.length) ' ' else l with hp
  have hple : bc ≤ padded.length := by
    rw [hp]
    by_cases h : bc > l.length
    · rw [if_pos h, List.length_append, List.length_replicate]
      omega
    · rw [if_neg h]
      omega
  have htlen : (padded.take bc).length = bc := by
    rw [List.length_take]
    omega
  rw [List.append_assoc, getD_append_sub _ _ _ bc (by omega), htlen,
    Nat.sub_self]
  simp

/-- C2, counterexample.  Rows 0-2 selected downward in VisualBlock (anchor
`(0,0)`, cursor `(2,0)`), then `I` and one typed character.  Because the row
range is recomputed from the anchor and the live cursor — which `I` moved to
the top row — only row 0 is rewritten; the claim predicts all three rows gain
the character at column 0. -/
theorem c2_block_insert_char_counterexample :
    (blockInsertChar
        (enterBlockInsertBefore [['a'], ['b'], ['c']] (0, 0) (2, 0)) 'x').lines
      = [['x', 'a'], ['b'], ['c']] ∧
    ¬ ((blockInsertChar
        (enterBlockInsertBefore [['a'], ['b'], ['c']] (0, 0) (2, 0)) 'x').lines
      = [['x', 'a'], ['x', 'b'], ['x', 'c']]) := by
  constructor
  · decide
  · decide

/-- C2, amended.  A typed character in BlockInsert is inserted at the tracked
column into every row of `[min(anchor_row, cursor_row),
max(anchor_row, cursor_row)]` recomputed from the anchor and the live cursor
(the cursor stays on the entry-time top row, so this is the span from the top
row to the anchor row — the full selected block exactly when the anchor was
its bottom row): each such nonempty row is padded with spaces when shorter
than the tracked column and gains the character at that column, rows outside
are untouched, the buffer keeps its length, and the tracked column advances by
exactly one.  (Rows that are empty are excluded: rewriting an empty row joins
it with its successor, see `replaceLine`.) -/
theorem c2_block_insert_char_amended (s : BIState) (c : Char)
    (hmax : max s.anchorRow s.cursorRow < s.lines.length)
    (hne : ∀ r ∈ List.range' (min s.anchorRow s.cursorRow)
        (max s.anchorRow s.cursorRow + 1 - min s.anchorRow s.cursorRow),
        s.lines.getD r [] ≠ []) :
    (blockInsertChar s c).blockCol = s.blockCol + 1 ∧
    (blockInsertChar s c).lines.length = s.lines.length ∧
    (∀ r, min s.anchorRow s.cursorRow ≤ r →
        r ≤ max s.anchorRow s.cursorRow →
        (blockInsertChar s c).lines.getD r []
            = mkBlockInsertLine (s.lines.getD r []) s.blockCol c ∧
        ((blockInsertChar s c).lines.getD r []).getD s.blockCol ' ' = c) ∧
    (∀ r, r < min s.anchorRow s.cursorRow ∨ max s.anchorRow s.cursorRow < r →
        (blockInsertChar s c).lines.getD r [] = s.lines.getD r []) := by
  have hminmax : min s.anchorRow s.cursorRow ≤ max s.anchorRow s.cursorRow :=
    le_trans (Nat.min_le_left _ _) (Nat.le_max_left _ _)
  have hne' : ∀ r, min s.anchorRow s.cursorRow ≤ r →
      r < min s.anchorRow s.cursorRow
        + (max s.anchorRow s.cursorRow + 1 - min s.anchorRow s.cursorRow) →
      s.lines.getD r [] ≠ [] := by
    intro r h1 h2
    exact hne r (List.mem_range'_1.mpr ⟨h1, h2⟩)
  obtain ⟨hlen, hget⟩ := rowMapLoop_spec
    (fun l => mkBlockInsertLine l s.blockCol c) s.lines
    (min s.anchorRow s.cursorRow)
    (max s.anchorRow s.cursorRow + 1 - min s.anchorRow s.cursorRow) hne'
  have hlines : (blockInsertChar s c).lines
      = rowMapLoop (fun l => mkBlockInsertLine l s.blockCol c) s.lines
          (min s.anchorRow s.cursorRow)
          (max s.anchorRow s.cursorRow + 1 - min s.anchorRow s.cursorRow) := rfl
  refine ⟨rfl, by rw [hlines]; exact hlen, ?_, ?_⟩
  · intro r h1 h2
    have := hget r
    rw [if_pos ⟨h1, by omega⟩] at this
    rw [hlines, this]
    exact ⟨rfl, mkBlockInsertLine_getD _ _ _⟩
  · intro r hr
    have := hget r
    rw [if_neg (by omega)] at this
    rw [hlines, this]

/-- Witness for the amended C2: rows 0-2 selected upward (anchor `(2,0)`,
cursor `(0,0)`), `I`, one typed character; the tracked column advances from 0
to 1. -/
theorem c2_block_insert_char_amended_witness :
    (blockInsertChar
        (enterBlockInsertBefore [['a'], ['b'], ['c']] (2, 0) (0, 0)) 'x').blockCol
      = 1 := by
  have h := c2_block_insert_char_amended
    (enterBlockInsertBefore [['a'], ['b'], ['c']] (2, 0) (0, 0)) 'x'
    (by decide) (by decide)
  exact h.1

/-- C3, counterexample.  Anchor `(0,5)`, cursor `(0,1)`, `I` captures
`insert_column = 1`; typing one character moves the tracked column to 2 (above
the captured 1), yet Backspace is a no-op: `original_col` is recomputed from
the live anchor/cursor as `min 5 2 = 2`, so the guard
`block_insert_col > original_col` fails and nothing retreats or is removed. -/
theorem c3_block_insert_backspace_counterexample :
    (enterBlockInsertBefore [['a', 'b', 'c', 'd', 'e', 'f']] (0, 5) (0, 1)).blockCol
      = 1 ∧
    (blockInsertChar
        (enterBlockInsertBefore [['a', 'b', 'c', 'd', 'e', 'f']] (0, 5) (0, 1))
        'x').blockCol = 2 ∧
    blockInsertBackspace
        (blockInsertChar
          (enterBlockInsertBefore [['a', 'b', 'c', 'd', 'e', 'f']] (0, 5) (0, 1))
          'x')
      = blockInsertChar
          (enterBlockInsertBefore [['a', 'b', 'c', 'd', 'e', 'f']] (0, 5) (0, 1))
          'x' := by
  refine ⟨by decide, by decide, by decide⟩

/-- C3, amended.  Backspace in BlockInsert retreats only while the tracked
column strictly exceeds `original_col` RECOMPUTED at the keystroke from the
live anchor and cursor (`min(anchor_col, cursor_col)` for `I`,
`max(anchor_col, cursor_col) + 1` for `A`) — not the `insert_column` captured
on entering the mode; at or below that recomputed column Backspace is a no-op.
When it fires it retreats the tracked column by one — hence never below the
recomputed `original_col` — and removes the character at the retreated column
from every nonempty row of the recomputed row range (rows long enough;
shorter rows are left alone), leaving rows outside the range untouched. -/
theorem c3_block_insert_backspace_amended (s : BIState) :
    (s.blockCol ≤ originalColOf s → blockInsertBackspace s = s) ∧
    (s.blockCol > originalColOf s →
      (∀ r ∈ List.range' (min s.anchorRow s.cursorRow)
          (max s.anchorRow s.cursorRow + 1 - min s.anchorRow s.cursorRow),
          s.lines.getD r [] ≠ []) →
      (blockInsertBackspace s).blockCol = s.blockCol - 1 ∧
      originalColOf s ≤ (blockInsertBackspace s).blockCol ∧
      (blockInsertBackspace s).lines.length = s.lines.length ∧
      (∀ r, min s.anchorRow s.cursorRow ≤ r →
          r ≤ max s.anchorRow s.cursorRow →
          (blockInsertBackspace s).lines.getD r []
            = mkBackspaceLine (s.lines.getD r []) (s.blockCol - 1)) ∧
      (∀ r, r < min s.anchorRow s.cursorRow ∨ max s.anchorRow s.cursorRow < r →
          (blockInsertBackspace s).lines.getD r [] = s.lines.getD r [])) := by
  constructor
  · intro h
    unfold blockInsertBackspace
    rw [if_neg (by omega)]
  · intro h hne
    have hne' : ∀ r, min s.anchorRow s.cursorRow ≤ r →
        r < min s.anchorRow s.cursorRow
          + (max s.anchorRow s.cursorRow + 1 - min s.anchorRow s.cursorRow) →
        s.lines.getD r [] ≠ [] := by
      intro r h1 h2
      exact hne r (List.mem_range'_1.mpr ⟨h1, h2⟩)
    obtain ⟨hlen, hget⟩ := rowMapLoop_spec
      (fun l => mkBackspaceLine l (s.blockCol - 1)) s.lines
      (min s.anchorRow s.cursorRow)
      (max s.anchorRow s.cursorRow + 1 - min s.anchorRow s.cursorRow) hne'
    have hstate : blockInsertBackspace s
        = { s with
            lines := rowMapLoop (fun l => mkBackspaceLine l (s.blockCol - 1))
              s.lines (min s.anchorRow s.cursorRow)
              (max s.anchorRow s.cursorRow + 1 - min s.anchorRow s.cursorRow)
            blockCol := s.blockCol - 1
            cursorRow := min (min s.anchorRow s.cursorRow)
              ((rowMapLoop (fun l => mkBackspaceLine l (s.blockCol - 1))
                s.lines (min s.anchorRow s.cursorRow)
                (max s.anchorRow s.cursorRow + 1
                  - min s.anchorRow s.cursorRow)).length - 1)
            cursorCol := min (s.blockCol - 1)
              ((rowMapLoop (fun l => mkBackspaceLine l (s.blockCol - 1))
                  s.lines (min s.anchorRow s.cursorRow)
                  (max s.anchorRow s.cursorRow + 1
                    - min s.anchorRow s.cursorRow)).getD
                (min (min s.anchorRow s.cursorRow)
                  ((rowMapLoop (fun l => mkBackspaceLine l (s.blockCol - 1))
                    s.lines (min s.anchorRow s.cursorRow)
                    (max s.anchorRow s.cursorRow + 1
                      - min s.anchorRow s.cursorRow)).length - 1)) []).length } := by
      unfold blockInsertBackspace
      rw [if_pos (by omega)]
    refine ⟨by rw [hstate], by rw [hstate]; simp only; omega,
      by rw [hstate]; exact hlen, ?_, ?_⟩
    · intro r h1 h2
      have hr := hget r
      rw [if_pos ⟨h1, by omega⟩] at hr
      rw [hstate]
      exact hr
    · intro r hr
      have hr' := hget r
      rw [if_neg (by omega)] at hr'
      rw [hstate]
      exact hr'

/-- Witness for the amended C3: anchor `(0,0)`, cursor `(0,2)`, tracked column
2 in Before mode; Backspace retreats to column 1 and removes `'b'` from
`"abc"`. -/
theorem c3_block_insert_backspace_amended_witness :
    (blockInsertBackspace
        ⟨[['a', 'b', 'c']], 0, 0, 0, 2, 2, InsPos.before⟩).blockCol = 1 := by
  have h := (c3_block_insert_backspace_amended
    ⟨[['a', 'b', 'c']], 0, 0, 0, 2, 2, InsPos.before⟩).2
    (by decide) (by decide)
  exact h.1

/-! Section: Normal-mode key-sequence resolver (app.rs 1561-1649, 1784-1791)

With a non-empty buffer the typed character is appended and the result matched
verbatim against the fixed table; a miss that extends none of the
backslash-prefixed commands clears the buffer with an "invalid sequence"
status; the keystroke is consumed either way.  With an empty buffer,
characters not bound to a single-key command are pushed to start a new
prefix. -/

def ggSeq : List Char := ['g', 'g']
def yySeq : List Char := ['y', 'y']
def ddSeq : List Char := ['d', 'd']
def obSeq : List Char := ['\\', 'o', 'b']
def otSeq : List Char := ['\\', 'o', 't']
def fSeq : List Char := ['\\', 'f']
def ootSeq : List Char := ['\\', 'o', 'o', 't']
def ooySeq : List Char := ['\\', 'o', 'o', 'y']
def ooTSeq : List Char := ['\\', 'o', 'o', 'T']
def tSeq : List Char := ['\\', 't']

/-- Boolean prefix test agreeing with the `<+:` relation; the Rust guard
uses `starts_with`. -/
theorem isPrefixOfEq {l₁ l₂ : List Char} : l₁.isPrefixOf l₂ = true ↔ l₁ <+: l₂ :=
  List.isPrefixOf_iff_prefix

/-- The fixed Normal-mode multi-key command table (app.rs 1565-1633). -/
def seqTable : List (List Char) :=
  [ggSeq, yySeq, ddSeq, obSeq, otSeq, fSeq, ootSeq, ooySeq, ooTSeq, tSeq]

/-- The backslash-prefixed entries: the only ones the fall-through guard at
app.rs 1634-1640 tests with `starts_with`. -/
def bsTable : List (List Char) :=
  [obSeq, otSeq, fSeq, ootSeq, ooySeq, ooTSeq, tSeq]

inductive SearchKind where
  | backlinks
  | tags
  | files
deriving DecidableEq, Repr

inductive DatedFile where
  | today
  | yesterday
  | tomorrow
deriving DecidableEq, Repr

/-- Effect of one keystroke routed through the non-empty-buffer branch. -/
inductive NormalSeqEffect where
  | jumpTop
  | yankLine
  | deleteLine
  | startSearch (kind : SearchKind)
  | openDated (which : DatedFile)
  | enterFileTree
  | invalidSeq (seq : List Char)
  | keepBuffering
deriving DecidableEq, Repr

/-- Non-empty-buffer resolution (app.rs 1562-1647): append the character,
match verbatim, fall through to the invalid-sequence guard, else keep
buffering.  Returns the new key-sequence buffer and the effect. -/
def normalSeqStep (s : List Char) (c : Char) : List Char × NormalSeqEffect :=
  if s ++ [c] = ggSeq then ([], .jumpTop)
  else if s ++ [c] = yySeq then ([], .yankLine)
  else if s ++ [c] = ddSeq then ([], .deleteLine)
  else if s ++ [c] = obSeq then ([], .startSearch .backlinks)
  else if s ++ [c] = otSeq then ([], .startSearch .tags)
  else if s ++ [c] = fSeq then ([], .startSearch .files)
  else if s ++ [c] = ootSeq then ([], .openDated .today)
  else if s ++ [c] = ooySeq then ([], .openDated .yesterday)
  else if s ++ [c] = ooTSeq then ([], .openDated .tomorrow)
  else if s ++ [c] = tSeq then ([], .enterFileTree)
  else if ¬ ((s ++ [c]).isPrefixOf obSeq ∨ (s ++ [c]).isPrefixOf otSeq
      ∨ (s ++ [c]).isPrefixOf fSeq ∨ (s ++ [c]).isPrefixOf ootSeq
      ∨ (s ++ [c]).isPrefixOf ooySeq ∨ (s ++ [c]).isPrefixOf ooTSeq
      ∨ (s ++ [c]).isPrefixOf tSeq)
    then ([], .invalidSeq (s ++ [c]))
  else (s ++ [c], .keepBuffering)

/-- Characters bound to an immediate single-key Normal command when the
buffer is empty (app.rs 1652-1783): with Ctrl also `o i r v`; in any case
`u i a o v x p : j k h l G`.  Anything else is pushed (app.rs 1784-1791). -/
def boundSingleKey (ctrl : Bool) (c : Char) : Bool :=
  (ctrl && (c == 'o' || c == 'i' || c == 'r' || c == 'v'))
  || c == 'u' || c == 'i' || c == 'a' || c == 'o' || c == 'v' || c == 'x'
  || c == 'p' || c == ':' || c == 'j' || c == 'k' || c == 'h' || c == 'l'
  || c == 'G'

/-- Evolution of the Normal-mode key-sequence buffer on one character
keystroke, covering both branches of `handle_input` that can touch it. -/
def normalKeySeqAfterChar (s : List Char) (ctrl : Bool) (c : Char) :
    List Char :=
  if s ≠ [] then (normalSeqStep s c).1
  else if boundSingleKey ctrl c then []
  else [c]

inductive StatusMsg where
  | normalMsg
  | movedToTop
  | yankedLine
  | deletedLine
  | startedSearch (kind : SearchKind)
  | openedDated (which : DatedFile)
  | enteredFileTree
  | invalidSeq (seq : List Char)
  | saved
  | unknownCommand (cmd : List Char)
deriving DecidableEq, Repr

/-- A request to an external collaborator (search backend, document store,
file tree); the state change it causes is outside this branch. -/
inductive ExtRequest where
  | searchReq (kind : SearchKind)
  | openDatedReq (which : DatedFile)
  | fileTreeReq
deriving DecidableEq, Repr

/-- Editor state touched by the non-empty-buffer branch. -/
structure NormalState where
  lines : List Line
  cursorRow : Nat
  cursorCol : Nat
  keySeq : List Char
  yanked : List Line
  status : StatusMsg
deriving DecidableEq, Repr

/-- State-level non-empty-buffer branch (app.rs 1561-1648): `gg` jumps the
cursor to the top (`CursorMove::Top`, column clamped to the first line), `yy`
fills the yank register, `dd` empties the current line (via
`delete_line_by_end`, modelled by `replaceLine` with empty content), the
backslash commands emit collaborator requests, an invalid sequence only sets
the status, and an unresolved prefix keeps buffering. -/
def normalSeqHandle (st : NormalState) (c : Char) :
    NormalState × Option ExtRequest :=
  let r := normalSeqStep st.keySeq c
  match r.2 with
  | .jumpTop =>
    ({ st with
        keySeq := r.1
        cursorRow := 0
        cursorCol := min st.cursorCol (st.lines.getD 0 []).length
        status := .movedToTop }, none)
  | .yankLine =>
    ({ st with
        keySeq := r.1
        yanked := [st.lines.getD st.cursorRow []]
        status := .yankedLine }, none)
  | .deleteLine =>
    ({ st with
        keySeq := r.1
        lines := replaceLine st.lines st.cursorRow []
        cursorCol := 0
        status := .deletedLine }, none)
  | .startSearch k =>
    ({ st with
        keySeq := r.1
        status := .startedSearch k }, some (.searchReq k))
  | .openDated d =>
    ({ st with
        keySeq := r.1
        status := .openedDated d }, some (.openDatedReq d))
  | .enterFileTree =>
    ({ st with
        keySeq := r.1
        status := .enteredFileTree }, some .fileTreeReq)
  | .invalidSeq t =>
    ({ st with
        keySeq := r.1
        status := .invalidSeq t }, none)
  | .keepBuffering => ({ st with keySeq := r.1 }, none)

theorem normalSeqStep_invalid (s : List Char) (c : Char)
    (h2 : (s ++ [c]) ∉ seqTable)
    (h3 : ∀ e ∈ seqTable, ¬ (s ++ [c]) <+: e) :
    normalSeqStep s c = ([], .invalidSeq (s ++ [c])) := by
  have hne : ∀ e ∈ seqTable, s ++ [c] ≠ e := fun e he hc => h2 (hc ▸ he)
  have hsub : ∀ e ∈ bsTable, e ∈ seqTable := by decide
  have hpf : ∀ e ∈ bsTable, (s ++ [c]).isPrefixOf e = false := by
    intro e he
    rw [Bool.eq_false_iff]
    intro hb
    exact h3 e (hsub e he) (isPrefixOfEq.mp hb)
  simp only [normalSeqStep]
  rw [if_neg (hne ggSeq (by simp [seqTable])),
    if_neg (hne yySeq (by simp [seqTable])),
    if_neg (hne ddSeq (by simp [seqTable])),
    if_neg (hne obSeq (by simp [seqTable])),
    if_neg (hne otSeq (by simp [seqTable])),
    if_neg (hne fSeq (by simp [seqTable])),
    if_neg (hne ootSeq (by simp [seqTable])),
    if_neg (hne ooySeq (by simp [seqTable])),
    if_neg (hne ooTSeq (by simp [seqTable])),
    if_neg (hne tSeq (by simp [seqTable])),
    if_pos]
  intro hor
  rcases hor with h | h | h | h | h | h | h
  · exact absurd h (by rw [hpf obSeq (by simp [bsTable])]; simp)
  · exact absurd h (by rw [hpf otSeq (by simp [bsTable])]; simp)
  · exact absurd h (by rw [hpf fSeq (by simp [bsTable])]; simp)
  · exact absurd h (by rw [hpf ootSeq (by simp [bsTable])]; simp)
  · exact absurd h (by rw [hpf ooySeq (by simp [bsTable])]; simp)
  · exact absurd h (by rw [hpf ooTSeq (by simp [bsTable])]; simp)
  · exact absurd h (by rw [hpf tSeq (by simp [bsTable])]; simp)

/-- C5.  With a non-empty prefix buffer: (a) `g` after `g` fires
jump-to-document-start — the cursor moves to the top row — clears the prefix
buffer, reports the moved-to-top status and leaves the text buffer unchanged;
(b) a character making the buffer match no table entry and extend no table
entry clears the buffer, reports an invalid-sequence status, emits no
collaborator request (the keystroke is consumed by this branch, never
reprocessed) and leaves the text buffer unchanged. -/
theorem c5_gg_fires_and_unknown_resets (st : NormalState) (c : Char) :
    (st.keySeq = ['g'] → c = 'g' →
      (normalSeqHandle st c).1.cursorRow = 0 ∧
      (normalSeqHandle st c).1.keySeq = [] ∧
      (normalSeqHandle st c).1.lines = st.lines ∧
      (normalSeqHandle st c).1.status = .movedToTop) ∧
    (st.keySeq ≠ [] → (st.keySeq ++ [c]) ∉ seqTable →
      (∀ e ∈ seqTable, ¬ (st.keySeq ++ [c]) <+: e) →
      (normalSeqHandle st c).1.keySeq = [] ∧
      (normalSeqHandle st c).1.status = .invalidSeq (st.keySeq ++ [c]) ∧
      (normalSeqHandle st c).1.lines = st.lines ∧
      (normalSeqHandle st c).2 = none) := by
  constructor
  · intro h1 h2
    subst h2
    have hstep : normalSeqStep st.keySeq 'g' = ([], .jumpTop) := by
      rw [h1]; decide
    simp [normalSeqHandle, hstep]
  · intro h1 h2 h3
    have hstep := normalSeqStep_invalid st.keySeq c h2 h3
    simp [normalSeqHandle, hstep]

/-- Witness for C5: from buffer `"g"`, pressing `g` tops the cursor, and
pressing `x` resets with the invalid-sequence status. -/
theorem c5_gg_fires_and_unknown_resets_witness :
    (normalSeqHandle ⟨[['a', 'b']], 1, 1, ['g'], [], .normalMsg⟩ 'g').1.cursorRow
        = 0 ∧
    (normalSeqHandle ⟨[['a', 'b']], 1, 1, ['g'], [], .normalMsg⟩ 'x').1.status
        = .invalidSeq ['g', 'x'] := by
  constructor
  · exact ((c5_gg_fires_and_unknown_resets
      ⟨[['a', 'b']], 1, 1, ['g'], [], .normalMsg⟩ 'g').1 rfl rfl).1
  · exact (((c5_gg_fires_and_unknown_resets
      ⟨[['a', 'b']], 1, 1, ['g'], [], .normalMsg⟩ 'x').2
        (by decide) (by decide) (by decide)).2).1

/-- C9, counterexample.  From an empty buffer, pressing `q` — unbound to any
single-key command — pushes it (app.rs 1784-1791): the buffer is the
non-empty `"q"`, which is a proper prefix of no table entry, violating the
claimed invariant (which demands such a buffer be cleared). -/
theorem c9_key_seq_invariant_counterexample :
    normalKeySeqAfterChar [] false 'q' = ['q'] ∧
    ¬ (['q'] = ([] : List Char) ∨
        ∃ e ∈ seqTable, ['q'] <+: e ∧ ['q'] ≠ e) := by
  constructor
  · decide
  · decide

/-- C9, amended.  After any character keystroke in Normal mode the buffer is
empty, a single character (any unbound character starts a one-character
prefix, whether or not it can extend into a known command), or a proper
prefix of one of the backslash table entries; and a non-empty buffer whose
extension matches a table entry verbatim is cleared (the entry fires). -/
theorem c9_key_seq_invariant_amended (s : List Char) (ctrl : Bool) (c : Char) :
    (normalKeySeqAfterChar s ctrl c = [] ∨
      (normalKeySeqAfterChar s ctrl c).length = 1 ∨
      ∃ e ∈ bsTable, normalKeySeqAfterChar s ctrl c <+: e ∧
        normalKeySeqAfterChar s ctrl c ≠ e) ∧
    (s ≠ [] → (s ++ [c]) ∈ seqTable → normalKeySeqAfterChar s ctrl c = []) := by
  constructor
  · by_cases hsnil : s = []
    · subst hsnil
      unfold normalKeySeqAfterChar
      rw [if_neg (by simp)]
      by_cases hb : boundSingleKey ctrl c
      · rw [if_pos hb]
        exact Or.inl rfl
      · rw [if_neg hb]
        exact Or.inr (Or.inl rfl)
    · unfold normalKeySeqAfterChar
      rw [if_pos hsnil]
      unfold normalSeqStep
      by_cases h1 : s ++ [c] = ggSeq
      · rw [if_pos h1]; exact Or.inl rfl
      rw [if_neg h1]
      by_cases h2 : s ++ [c] = yySeq
      · rw [if_pos h2]; exact Or.inl rfl
      rw [if_neg h2]
      by_cases h3 : s ++ [c] = ddSeq
      · rw [if_pos h3]; exact Or.inl rfl
      rw [if_neg h3]
      by_cases h4 : s ++ [c] = obSeq
      · rw [if_pos h4]; exact Or.inl rfl
      rw [if_neg h4]
      by_cases h5 : s ++ [c] = otSeq
      · rw [if_pos h5]; exact Or.inl rfl
      rw [if_neg h5]
      by_cases h6 : s ++ [c] = fSeq
      · rw [if_pos h6]; exact Or.inl rfl
      rw [if_neg h6]
      by_cases h7 : s ++ [c] = ootSeq
      · rw [if_pos h7]; exact Or.inl rfl
      rw [if_neg h7]
      by_cases h8 : s ++ [c] = ooySeq
      · rw [if_pos h8]; exact Or.inl rfl
      rw [if_neg h8]
      by_cases h9 : s ++ [c] = ooTSeq
      · rw [if_pos h9]; exact Or.inl rfl
      rw [if_neg h9]
      by_cases h10 : s ++ [c] = tSeq
      · rw [if_pos h10]; exact Or.inl rfl
      rw [if_neg h10]
      by_cases h11 : ¬ ((s ++ [c]).isPrefixOf obSeq
          ∨ (s ++ [c]).isPrefixOf otSeq ∨ (s ++ [c]).isPrefixOf fSeq
          ∨ (s ++ [c]).isPrefixOf ootSeq ∨ (s ++ [c]).isPrefixOf ooySeq
          ∨ (s ++ [c]).isPrefixOf ooTSeq ∨ (s ++ [c]).isPrefixOf tSeq)
      · rw [if_pos h11]; exact Or.inl rfl
      rw [if_neg h11]
      refine Or.inr (Or.inr ?_)
      rw [not_not] at h11
      rcases h11 with h | h | h | h | h | h | h
      · exact ⟨obSeq, by decide, isPrefixOfEq.mp h, h4⟩
      · exact ⟨otSeq, by decide, isPrefixOfEq.mp h, h5⟩
      · exact ⟨fSeq, by decide, isPrefixOfEq.mp h, h6⟩
      · exact ⟨ootSeq, by decide, isPrefixOfEq.mp h, h7⟩
      · exact ⟨ooySeq, by decide, isPrefixOfEq.mp h, h8⟩
      · exact ⟨ooTSeq, by decide, isPrefixOfEq.mp h, h9⟩
      · exact ⟨tSeq, by decide, isPrefixOfEq.mp h, h10⟩
  · intro h1 h2
    unfold normalKeySeqAfterChar
    rw [if_pos h1]
    simp only [seqTable, List.mem_cons, List.not_mem_nil, or_false] at h2
    rcases h2 with h | h | h | h | h | h | h | h | h | h <;>
      · unfold normalSeqStep
        simp only [h]
        decide

/-- Witness for the amended C9: pressing `o` with buffer `"\"` keeps
buffering (a proper prefix of `"\ob"`), and `g` after `g` clears. -/
theorem c9_key_seq_invariant_amended_witness :
    normalKeySeqAfterChar ['g'] false 'g' = [] :=
  (c9_key_seq_invariant_amended ['g'] false 'g').2 (by decide) (by decide)

/-! Section: Navigation history (app.rs 111-112, 198-199, 436-441, 481-501)

`history : Vec<(String, i64)>` with `history_index : usize`.  Every open that
is not back/forward traversal — wikilink/backlink follow (436-438), tag file
(716-718), search result (863-865), file tree (2419 via
`open_wikilink_file`) — truncates after the current index, appends and
advances.  `App::new` seeds the history with the initial file, so the vector
is never empty in a reachable state (`navigate_forward`'s `len() - 1` is
evaluated on `len ≥ 1`). -/

structure NavHistory where
  entries : List (String × Int)
  index : Nat
deriving DecidableEq, Repr

inductive NavStatus where
  | noPrev
  | noNext
deriving DecidableEq, Repr

/-- The history push performed by every non-traversal open. -/
def historyPush (h : NavHistory) (e : String × Int) : NavHistory :=
  { entries := h.entries.take (h.index + 1) ++ [e], index := h.index + 1 }

/-- The function `navigate_back` (app.rs 481-490); `none` status when a move happened (the
entry at the new index is then opened), a no-op status otherwise. -/
def navigateBack (h : NavHistory) : NavHistory × Option NavStatus :=
  if 0 < h.index then ({ h with index := h.index - 1 }, none)
  else (h, some .noPrev)

/-- The function `navigate_forward` (app.rs 492-501); the Rust guard is
`history_index < history.len() - 1` on `usize`, which on the reachable
states (`len ≥ 1`) agrees with this saturating form. -/
def navigateForward (h : NavHistory) : NavHistory × Option NavStatus :=
  if h.index < h.entries.length - 1 then ({ h with index := h.index + 1 }, none)
  else (h, some .noNext)

/-- C6.  Opening a document other than by back/forward truncates the entries
after the current index, appends the new entry and advances the index (the
new entry becomes current and earlier entries survive); consequently from the
seeded history, after open A, open B, open C, back, back (current entry is A
again), open D, the history is `[initial, A, D]` with index 2 and `forward`
is a no-op that only reports a status; and `back` at index 0 and `forward` at
the last index never wrap, reporting a no-op status instead. -/
theorem c6_navigation_history_truncate_and_no_wrap
    (h : NavHistory) (e p0 a b c d : String × Int) :
    ((historyPush h e).index = h.index + 1 ∧
      (h.index < h.entries.length →
        (historyPush h e).entries.getD (historyPush h e).index ("", 0) = e) ∧
      (historyPush h e).entries.length
          = min (h.index + 1) h.entries.length + 1 ∧
      (∀ i, i ≤ h.index → i < h.entries.length →
        (historyPush h e).entries.getD i ("", 0) = h.entries.getD i ("", 0))) ∧
    ((navigateBack (navigateBack
        (historyPush (historyPush (historyPush ⟨[p0], 0⟩ a) b) c)).1).1.index
        = 1 ∧
      (navigateBack (navigateBack
        (historyPush (historyPush (historyPush ⟨[p0], 0⟩ a) b) c)).1).1.entries.getD
          1 ("", 0) = a ∧
      historyPush (navigateBack (navigateBack
          (historyPush (historyPush (historyPush ⟨[p0], 0⟩ a) b) c)).1).1 d
        = ⟨[p0, a, d], 2⟩ ∧
      navigateForward ⟨[p0, a, d], 2⟩ = (⟨[p0, a, d], 2⟩, some .noNext)) ∧
    (h.index = 0 → navigateBack h = (h, some .noPrev)) ∧
    (h.index + 1 = h.entries.length →
      navigateForward h = (h, some .noNext)) := by
  refine ⟨⟨rfl, ?_, ?_, ?_⟩, ⟨rfl, rfl, rfl, rfl⟩, ?_, ?_⟩
  · intro hidx
    show (h.entries.take (h.index + 1) ++ [e]).getD (h.index + 1) ("", 0) = e
    have heq : (h.entries.take (h.index + 1)).length = h.index + 1 := by
      rw [List.length_take]; omega
    rw [getD_append_sub _ _ _ _ (by omega), heq, Nat.sub_self]
    rfl
  · show (h.entries.take (h.index + 1) ++ [e]).length = _
    rw [List.length_append, List.length_take]
    rfl
  · intro i hi hilen
    show (h.entries.take (h.index + 1) ++ [e]).getD i ("", 0) = _
    rw [getD_append_left _ _ _ i (by rw [List.length_take]; omega),
      getD_take _ _ _ _ (by omega)]
  · intro h0
    unfold navigateBack
    rw [if_neg (by omega)]
  · intro htip
    unfold navigateForward
    rw [if_neg (by omega)]

/-- Witness for C6 at concrete entries: the scenario history and the no-wrap
no-ops. -/
theorem c6_navigation_history_truncate_and_no_wrap_witness :
    navigateBack ⟨[("p", 0)], 0⟩ = (⟨[("p", 0)], 0⟩, some .noPrev) ∧
    navigateForward ⟨[("p", 0), ("a", 1)], 1⟩
        = (⟨[("p", 0), ("a", 1)], 1⟩, some .noNext) := by
  constructor
  · exact (c6_navigation_history_truncate_and_no_wrap ⟨[("p", 0)], 0⟩
      ("e", 9) ("p", 0) ("a", 1) ("b", 2) ("c", 3) ("d", 4)).2.2.1 rfl
  · exact (c6_navigation_history_truncate_and_no_wrap
      ⟨[("p", 0), ("a", 1)], 1⟩
      ("e", 9) ("p", 0) ("a", 1) ("b", 2) ("c", 3) ("d", 4)).2.2.2 rfl

/-! Section: Undo snapshots and the Insert-mode round trip

Modelled from the spec: the undo/redo snapshot engine of the line buffer
(§3 "Undo history", §4.2 "Undo/redo").  The buffer itself lives in the
external `tui_textarea::TextArea` widget; `handle_input` calls its
`input` (one character insertion per Insert-mode `Char` keystroke,
app.rs 1827-1828) and `undo` (Normal-mode `u`, app.rs 1675-1681), whose
implementations are not part of this repository's sources.  Per the spec,
every content-mutating operation first pushes a snapshot of the lines; undo
pops the most recent snapshot and installs it, moving the replaced content to
the redo stack; a new edit clears the redo stack. -/

structure UndoTA where
  lines : List Line
  cursorRow : Nat
  cursorCol : Nat
  undoStack : List (List Line)
  redoStack : List (List Line)
deriving DecidableEq, Repr

/-- Insert one character at the cursor (the Insert-mode `Char` keystroke):
snapshot, mutate, advance the column, clear the redo stack. -/
def taInsertChar (ta : UndoTA) (c : Char) : UndoTA :=
  { lines := ta.lines.set ta.cursorRow
      ((ta.lines.getD ta.cursorRow []).take ta.cursorCol ++ [c]
        ++ (ta.lines.getD ta.cursorRow []).drop ta.cursorCol)
    cursorRow := ta.cursorRow
    cursorCol := ta.cursorCol + 1
    undoStack := ta.lines :: ta.undoStack
    redoStack := [] }

/-- Undo (Normal-mode `u`): pop the most recent snapshot and install it,
pushing the replaced content onto the redo stack; a no-op on an empty
history. -/
def taUndo (ta : UndoTA) : UndoTA :=
  match ta.undoStack with
  | [] => ta
  | prev :: rest =>
    { lines := prev
      cursorRow := ta.cursorRow
      cursorCol := ta.cursorCol
      undoStack := rest
      redoStack := ta.lines :: ta.redoStack }

/-- A sequence of Insert-mode character insertions. -/
def taInsertSeq (cs : List Char) (ta : UndoTA) : UndoTA :=
  cs.foldl taInsertChar ta

theorem taUndo_of_undoStack (ta : UndoTA) (prev : List Line)
    (rest : List (List Line)) (h : ta.undoStack = prev :: rest) :
    taUndo ta = ⟨prev, ta.cursorRow, ta.cursorCol, rest,
      ta.lines :: ta.redoStack⟩ := by
  cases ta with
  | mk l r c u d =>
    simp only at h
    subst h
    rfl

/-- C7.  For every buffer state and every sequence of `n` character
insertions performed in Insert mode, `n` subsequent undos restore the line
content (and the undo history) to exactly the state before the insertions. -/
theorem c7_insert_undo_round_trip (cs : List Char) (ta : UndoTA) :
    (taUndo^[cs.length] (taInsertSeq cs ta)).lines = ta.lines ∧
    (taUndo^[cs.length] (taInsertSeq cs ta)).undoStack = ta.undoStack := by
  induction cs generalizing ta with
  | nil => exact ⟨rfl, rfl⟩
  | cons c cs ih =>
    have hseq : taInsertSeq (c :: cs) ta = taInsertSeq cs (taInsertChar ta c) :=
      rfl
    obtain ⟨ihl, ihu⟩ := ih (taInsertChar ta c)
    have hu : (taUndo^[cs.length] (taInsertSeq cs (taInsertChar ta c))).undoStack
        = ta.lines :: ta.undoStack := ihu
    rw [hseq, List.length_cons, Function.iterate_succ_apply',
      taUndo_of_undoStack _ ta.lines ta.undoStack hu]
    exact ⟨rfl, rfl⟩

/-! Section: Command execution and the event loop (app.rs 327-342, 1879-1916;
main.rs 487-560)

`save_file` writes the buffer and shells out to the `markdown-scanner`
indexer; a write error or a non-zero scanner exit returns `Err`, which the
Command-mode `Enter` branch propagates with `?` BEFORE restoring the mode or
clearing the command text.  `main`'s blocking loop calls
`app.handle_input(event)?`, so a handler error propagates out of `main`,
terminating the loop and the process. -/

inductive EditorErr where
  | ioErr (msg : String)
  | scanner (stderr : String)
deriving DecidableEq, Repr

/-- Outcome of the two external effects inside `save_file`: the `fs::write`
and the `markdown-scanner` child process. -/
inductive SaveOutcome where
  | writeFails (msg : String)
  | scannerFails (stderr : String)
  | ok
deriving DecidableEq, Repr

inductive EMode where
  | normal
  | insert
  | command
  | complete
  | search
  | tagFiles
  | visual
  | visualBlock
  | blockInsert
  | fileTree
  | fileTreeVisual
deriving DecidableEq, Repr

/-- Editor state touched by Command mode. -/
structure CmdState where
  lines : List Line
  mode : EMode
  command : List Char
  status : StatusMsg
  shouldQuit : Bool
  prevMode : Option EMode
deriving DecidableEq, Repr

/-- The function `save_file` (app.rs 327-342), parameterized by the outcome of its
external effects: a failed write or a failing scanner short-circuits with the
error; on success the status becomes "Saved". -/
def saveFile (s : CmdState) (o : SaveOutcome) : Except EditorErr CmdState :=
  match o with
  | .writeFails m => .error (.ioErr m)
  | .scannerFails m => .error (.scanner m)
  | .ok => .ok { s with status := .saved }

/-- The epilogue of the Command-mode `Enter` branch (app.rs 1904-1907),
reached only when no executed command returned an error: restore the previous
mode, clear the command text. -/
def finishCommand (s : CmdState) : CmdState :=
  { s with
    mode := s.prevMode.getD .normal
    command := []
    prevMode := none }

/-- The Command-mode `Enter` branch (app.rs 1887-1908).  `rename`/`new`
delegate to collaborator file operations whose outcome is the `opRes`
parameter; every error propagates via `?` before the epilogue runs. -/
def commandEnter (s : CmdState) (save : SaveOutcome)
    (opRes : Except EditorErr Unit) : Except EditorErr CmdState :=
  if s.command = ['w'] then
    match saveFile s save with
    | .error e => .error e
    | .ok s1 => .ok (finishCommand s1)
  else if s.command = ['q'] then
    .ok (finishCommand { s with shouldQuit := true })
  else if s.command = ['w', 'q'] then
    match saveFile s save with
    | .error e => .error e
    | .ok s1 => .ok (finishCommand { s1 with shouldQuit := true })
  else if (['r', 'e', 'n', 'a', 'm', 'e', ' ']).isPrefixOf s.command then
    match opRes with
    | .error e => .error e
    | .ok _ => .ok (finishCommand s)
  else if (['n', 'e', 'w', ' ']).isPrefixOf s.command then
    match opRes with
    | .error e => .error e
    | .ok _ => .ok (finishCommand s)
  else
    .ok (finishCommand { s with status := .unknownCommand s.command })

/-- The blocking event loop of main.rs 514-557 restricted to Command-mode
`Enter` events, each carrying the outcomes of its external effects: the loop
exits normally when `should_quit` is set, and `app.handle_input(event)?`
makes any handler error terminate the loop (and `main`) with that error. -/
def runCommandLoop (s : CmdState) :
    List (SaveOutcome × Except EditorErr Unit) → Except EditorErr CmdState
  | [] => .ok s
  | (save, opRes) :: rest =>
    if s.shouldQuit then .ok s
    else
      match commandEnter s save opRes with
      | .error e => .error e
      | .ok s' => runCommandLoop s' rest

/-- C8, counterexample.  In Command mode with command text `w`, `Enter` while
the markdown-scanner exits non-zero: the handler returns the scanner error —
the status message is never set, the mode is not restored — and the event
loop terminates with that error instead of continuing, refuting the claim
that the failure is surfaced as a status message with the loop surviving. -/
theorem c8_save_failure_counterexample :
    commandEnter ⟨[['h', 'i']], .command, ['w'], .normalMsg, false, some .normal⟩
        (.scannerFails "idx") (.ok ())
      = .error (.scanner "idx") ∧
    runCommandLoop
        ⟨[['h', 'i']], .command, ['w'], .normalMsg, false, some .normal⟩
        [(.scannerFails "idx", .ok ())]
      = .error (.scanner "idx") ∧
    (runCommandLoop
        ⟨[['h', 'i']], .command, ['w'], .normalMsg, false, some .normal⟩
        [(.scannerFails "idx", .ok ())]).isOk = false := by
  refine ⟨rfl, rfl, rfl⟩

/-- C8, amended.  When `:w` or `:wq` fails — the write fails or the scanner
exits non-zero — `save_file`'s error is returned from the input handler
unchanged; the handler aborts before updating the status or restoring the
mode, and the event loop, receiving the error through `?`, terminates with it
rather than continuing. -/
theorem c8_save_failure_propagates_and_terminates (s : CmdState)
    (o : SaveOutcome) (opRes : Except EditorErr Unit) (e : EditorErr)
    (rest : List (SaveOutcome × Except EditorErr Unit))
    (hcmd : s.command = ['w'] ∨ s.command = ['w', 'q'])
    (herr : saveFile s o = .error e) :
    commandEnter s o opRes = .error e ∧
    (s.shouldQuit = false →
      runCommandLoop s ((o, opRes) :: rest) = .error e) := by
  have henter : commandEnter s o opRes = .error e := by
    rcases hcmd with hc | hc
    · unfold commandEnter
      rw [if_pos hc, herr]
    · unfold commandEnter
      rw [if_neg (by rw [hc]; decide), if_neg (by rw [hc]; decide),
        if_pos hc, herr]
  refine ⟨henter, fun hq => ?_⟩
  unfold runCommandLoop
  rw [hq]
  simp only [Bool.false_eq_true, if_false, henter]

/-- Witness for the amended C8 at the concrete failing save. -/
theorem c8_save_failure_propagates_and_terminates_witness :
    commandEnter
        ⟨[['h', 'i']], .command, ['w', 'q'], .normalMsg, false, some .normal⟩
        (.writeFails "disk") (.ok ())
      = .error (.ioErr "disk") :=
  (c8_save_failure_propagates_and_terminates
    ⟨[['h', 'i']], .command, ['w', 'q'], .normalMsg, false, some .normal⟩
    (.writeFails "disk") (.ok ()) (.ioErr "disk") []
    (Or.inr rfl) rfl).1

/-! Section: List-selection Down handlers (app.rs 1930-1935, 1979-1984, 2008-2013)

All three read `selected().unwrap_or(0)` and test
`selected < len() - 1` with the subtraction on `usize`: on an empty list this
underflows — a panic in a debug build; in a release build it wraps to
`2^64 - 1`. -/

/-- Unsigned `usize` subtraction as compiled in release mode: wrapping at `2^64`
(callers use `b ≤ 2^64`). -/
def usizeWrapSub (a b : Nat) : Nat := (a + 2 ^ 64 - b) % 2 ^ 64

/-- The shared Down handler of the Complete, Search and TagFiles modes:
`let selected = list_state.selected().unwrap_or(0);
 if selected < len - 1 { select(Some(selected + 1)) }`. -/
def listDown (len : Nat) (selected : Option Nat) : Option Nat :=
  if selected.getD 0 < usizeWrapSub len 1 then some (selected.getD 0 + 1)
  else selected

/-- C10.  On an empty suggestions/results/tag-files list with nothing
selected, the Down handler evaluates `len() - 1` on zero: the `usize`
subtraction wraps to `2^64 - 1` (release; a debug build panics), the guard
`0 < 2^64 - 1` passes, and the handler sets the selected index to 1, which is
not strictly below the list length 0 — the in-bounds claim fails on the
code.  On a nonempty list the handler does keep the selection strictly below
the length. -/
theorem c10_list_down_underflow_on_empty :
    usizeWrapSub 0 1 = 2 ^ 64 - 1 ∧
    listDown 0 none = some 1 ∧
    ¬ (1 < 0) := by
  refine ⟨by norm_num [usizeWrapSub], ?_, by omega⟩
  have h : usizeWrapSub 0 1 = 2 ^ 64 - 1 := by norm_num [usizeWrapSub]
  unfold listDown
  rw [Option.getD_none, h, if_pos (by norm_num)]

end Midetor
